import Mathlib

/-!
Verification development for the blockchain forensics pipeline
(src/blockchain_forensics/main.py).

The Python program keeps three append-only text files:
  transactions.log   one CSV line per transaction record,
  adjacency_list.csv one CSV line per (input address, output address) pair,
  address_index.idx  one CSV line per (address, file name, line number) entry.

We embed the program shallowly:
  - a Store holds the contents of the three files (the transaction and
    adjacency files as lists of text lines; the index file as a list of
    (address, file name, line number) triples -- the program writes an index
    line as the comma join of those three fields and reads it back with
    split, which is an exact round trip for the comma-free address and file
    names the pipeline uses);
  - process_block / ingest_blocks are pure state transformers over Store,
    with the RPC client passed in as an explicit chain-source value;
  - the write sequence of process_block is made explicit as a list of
    events (WEvent) so that ordering properties of the writes can be stated;
  - search_address and build_graph_from_address are embedded over Store,
    with the json.loads call modelled by a JSON parser and the eval calls
    on the stored Python list literals modelled by literal parsers;
  - networkx.DiGraph is modelled by NxGraph: a node list plus an edge list
    in which add_edge on an existing (u, v) pair overwrites its txid
    attribute, exactly as DiGraph (not MultiDiGraph) does.

Numeric fields (block height, timestamp) are Int, as Python ints.  Output
values are floats in the source; no claim computes with them, so they are
carried as their printed text (the repr string Python would embed in the
stored line).
-/

/-- File name constant from the source: TRANSACTION_FILE = 'transactions.log'. -/
def TRANSACTION_FILE : String := "transactions.log"

/-- File name constant from the source: ADJACENCY_FILE = 'adjacency_list.csv'. -/
def ADJACENCY_FILE : String := "adjacency_list.csv"

/-- File name constant from the source: ADDRESS_INDEX_FILE = 'address_index.idx'. -/
def ADDRESS_INDEX_FILE : String := "address_index.idx"

/-- One vin entry of an RPC transaction: vin.get('addr', 'coinbase'),
so the address is optional. -/
structure RpcVin where
  addr : Option String
deriving DecidableEq

/-- One vout entry of an RPC transaction: the optional
scriptPubKey['addresses'] list and the printed value. -/
structure RpcVout where
  spkAddresses : Option (List String)
  value : String
deriving DecidableEq

/-- One transaction as returned by the RPC client at verbosity 2. -/
structure RpcTx where
  txid : String
  vin : List RpcVin
  vout : List RpcVout
deriving DecidableEq

/-- One block as returned by the RPC client. -/
structure RpcBlock where
  hash : String
  height : Int
  time : Int
  tx : List RpcTx
  nextblockhash : Option String
deriving DecidableEq

/-- The chain-source collaborator (the RPC client): getblockhash, getblock,
getblockcount.  A fetch that raises in Python is modelled by none. -/
structure ChainSource where
  getblockhash : Int → Option String
  getblock : String → Option RpcBlock
  getblockcount : Int

/-- The state of the three storage files.  The transaction and adjacency
files are line lists (the header line written by initialize_files is line 0);
the index file is the list of (address, file name, line number) triples its
lines encode. -/
structure Store where
  txFile : List String
  adjFile : List String
  idxFile : List (String × String × Nat)
deriving DecidableEq

/-- The store right after initialize_files: header lines only, empty index. -/
def initialStore : Store :=
  { txFile := ["block_hash,txid,block_height,timestamp,inputs,outputs"]
    adjFile := ["input_address,output_address,txid,block_hash"]
    idxFile := [] }

/-- A transaction record as the pipeline stores it: the fields of the
tx_line written by process_block.  An output is (address, printed value). -/
structure TxRec where
  blockHash : String
  txid : String
  height : Int
  time : Int
  inputs : List String
  outputs : List (String × String)
deriving DecidableEq

/-- The single-quote character, used by Python repr of strings. -/
def pyQuote : Char := Char.ofNat 39

/-- Python repr of a plain string: surround with single quotes.  Faithful
for strings without quotes, backslashes or control characters, which is all
the pipeline ever stores. -/
def pyReprStr (s : String) : String :=
  String.singleton pyQuote ++ s ++ String.singleton pyQuote

/-- Comma-space join, as Python str() of a list renders its elements. -/
def commaJoin : List String → String
  | [] => ""
  | [x] => x
  | x :: y :: r => x ++ ", " ++ commaJoin (y :: r)

/-- Python str() of a list of strings, e.g. ['coinbase', 'a1']. -/
def pyReprStrList (l : List String) : String :=
  "[" ++ commaJoin (l.map pyReprStr) ++ "]"

/-- Python str() of one (address, value) tuple; the value is carried as its
printed text. -/
def pyReprPair (p : String × String) : String :=
  "(" ++ pyReprStr p.1 ++ ", " ++ p.2 ++ ")"

/-- Python str() of the output list, e.g. [('a2', 5.0)]. -/
def pyReprPairList (l : List (String × String)) : String :=
  "[" ++ commaJoin (l.map pyReprPair) ++ "]"

/-- The tx_line of process_block:
f-string of block hash, txid, height, timestamp, str(inputs), str(outputs). -/
def serializeTxRec (r : TxRec) : String :=
  r.blockHash ++ "," ++ r.txid ++ "," ++ toString r.height ++ "," ++
    toString r.time ++ "," ++ pyReprStrList r.inputs ++ "," ++
    pyReprPairList r.outputs

/-- Input extraction: [vin.get('addr', 'coinbase') for vin in tx['vin']]. -/
def extractInputs (tx : RpcTx) : List String :=
  tx.vin.map (fun v => v.addr.getD "coinbase")

/-- Output extraction:
[(vout['scriptPubKey'].get('addresses', ['unknown'])[0], vout['value'])
 for vout in tx['vout'] if vout['scriptPubKey'].get('addresses')].
The guard drops every vout whose scriptPubKey has no nonempty addresses
list, so the ['unknown'] default of the body is unreachable: a vout kept by
the guard always has a first address. -/
def extractOutputs (vouts : List RpcVout) : List (String × String) :=
  vouts.filterMap (fun v =>
    match v.spkAddresses with
    | some (a :: _) => some (a, v.value)
    | some [] => none
    | none => none)

/-- The record process_block builds for one transaction of a block. -/
def mkRec (bhash : String) (height time : Int) (tx : RpcTx) : TxRec :=
  { blockHash := bhash, txid := tx.txid, height := height, time := time
    inputs := extractInputs tx, outputs := extractOutputs tx.vout }

/-- One write of the ingestion pipeline: an append to the transaction log,
to the adjacency file, or to the address index. -/
inductive WEvent where
  | txAppend (line : String)
  | adjAppend (line : String)
  | idxAppend (addr : String) (file : String) (off : Nat)
deriving DecidableEq

/-- Apply one write to the store. -/
def applyEvent (st : Store) (e : WEvent) : Store :=
  match e with
  | .txAppend l => { st with txFile := st.txFile ++ [l] }
  | .adjAppend l => { st with adjFile := st.adjFile ++ [l] }
  | .idxAppend a f n => { st with idxFile := st.idxFile ++ [(a, f, n)] }

/-- Apply a sequence of writes in order. -/
def applyEvents (st : Store) (evs : List WEvent) : Store :=
  evs.foldl applyEvent st

/-- The writes of the inner double loop of process_block for one
transaction: for each input, for each output, one adjacency append followed
by the two index appends, all pointing at the transaction record's line
number off. -/
def pairEvents (bhash txid : String) (off : Nat) (inputs : List String)
    (outputs : List (String × String)) : List WEvent :=
  inputs.flatMap (fun i => outputs.flatMap (fun ov =>
    [WEvent.adjAppend (i ++ "," ++ ov.1 ++ "," ++ txid ++ "," ++ bhash),
     WEvent.idxAppend i TRANSACTION_FILE off,
     WEvent.idxAppend ov.1 TRANSACTION_FILE off]))

/-- The writes of process_block for one transaction: the transaction-record
append first (landing at line number baseLen, the file length before the
append, which is what the line-counting offset computation yields), then
the pair writes. -/
def txEvents (bhash : String) (height time : Int) (baseLen : Nat)
    (tx : RpcTx) : List WEvent :=
  WEvent.txAppend (serializeTxRec (mkRec bhash height time tx)) ::
    pairEvents bhash tx.txid baseLen (extractInputs tx)
      (extractOutputs tx.vout)

/-- The writes of process_block for a list of transactions; each
transaction record lands one line further down. -/
def blockTxEvents (bhash : String) (height time : Int) :
    Nat → List RpcTx → List WEvent
  | _, [] => []
  | baseLen, tx :: rest =>
    txEvents bhash height time baseLen tx ++
      blockTxEvents bhash height time (baseLen + 1) rest

/-- All writes process_block performs for one fetched block, given the
current length of the transaction file. -/
def processBlockEvents (baseLen : Nat) (b : RpcBlock) : List WEvent :=
  blockTxEvents b.hash b.height b.time baseLen b.tx

/-- process_block: fetch the block by hash and apply its writes; a fetch
failure is caught and leaves the store unchanged. -/
def process_block (rpc : ChainSource) (st : Store) (bhash : String) : Store :=
  match rpc.getblock bhash with
  | none => st
  | some b => applyEvents st (processBlockEvents st.txFile.length b)

/-- The while loop of ingest_blocks: while the current height does not
exceed the latest height, process the block at the current hash, then step
to its nextblockhash; a missing successor (KeyError in the source) is
caught and ends the run.  Fuel bounds the iteration count; ingest_blocks
always passes enough for the whole height range. -/
def ingestLoop (rpc : ChainSource) (latest : Int) :
    Nat → Store → String → Int → Store
  | 0, st, _, _ => st
  | fuel + 1, st, bhash, height =>
    if height ≤ latest then
      let st' := process_block rpc st bhash
      match (rpc.getblock bhash).bind (fun b => b.nextblockhash) with
      | none => st'
      | some h2 => ingestLoop rpc latest fuel st' h2 (height + 1)
    else st

/-- ingest_blocks(start_block, end_block): resolve the starting hash, take
the latest height from the argument or getblockcount, and run the loop.  A
getblockhash failure is caught and leaves the store unchanged. -/
def ingest_blocks (rpc : ChainSource) (st : Store) (startBlock : Int)
    (endBlock : Option Int) : Store :=
  match rpc.getblockhash startBlock with
  | none => st
  | some h0 =>
    let latest := endBlock.getD rpc.getblockcount
    ingestLoop rpc latest ((latest + 1 - startBlock).toNat + 1) st h0 startBlock

/-- Number of transaction records in the log (lines below the header). -/
def txRecordCount (st : Store) : Nat :=
  st.txFile.length - 1

/-- A JSON value, the result type of the json.loads model. -/
inductive JVal where
  | jnull
  | jbool (b : Bool)
  | jnum (s : String)
  | jstr (s : String)
  | jarr (xs : List JVal)
  | jobj (fs : List (String × JVal))

/-- JSON whitespace. -/
def jsonWs (c : Char) : Bool :=
  c = ' ' || c = '\t' || c = '\n' || c = '\r'

/-- Drop leading JSON whitespace. -/
def skipWs (cs : List Char) : List Char :=
  cs.dropWhile jsonWs

/-- Longest digit run at the front. -/
def spanDigits : List Char → (List Char × List Char)
  | [] => ([], [])
  | c :: r =>
    if c.isDigit then
      let p := spanDigits r
      (c :: p.1, p.2)
    else ([], c :: r)

/-- Integer part of a JSON number: 0, or a nonzero digit followed by
digits.  A leading 0 may not be followed by further digits. -/
def parseIntPart : List Char → Option (List Char × List Char)
  | [] => none
  | c :: r =>
    if c = '0' then some (['0'], r)
    else if c.isDigit then
      let p := spanDigits r
      some (c :: p.1, p.2)
    else none

/-- Optional fraction part of a JSON number. -/
def parseFracPart (cs : List Char) : Option (List Char × List Char) :=
  match cs with
  | '.' :: r =>
    match spanDigits r with
    | ([], _) => none
    | (d, rest) => some ('.' :: d, rest)
  | _ => some ([], cs)

/-- Optional exponent part of a JSON number. -/
def parseExpPart (cs : List Char) : Option (List Char × List Char)  :=
  match cs with
  | c :: r =>
    if c = 'e' || c = 'E' then
      match r with
      | s :: r2 =>
        if s = '+' || s = '-' then
          match spanDigits r2 with
          | ([], _) => none
          | (d, rest) => some (c :: s :: d, rest)
        else
          match spanDigits r with
          | ([], _) => none
          | (d, rest) => some (c :: d, rest)
      | [] => none
    else some ([], cs)
  | [] => some ([], cs)

/-- JSON number at the front of the input; returns its text and the rest. -/
def parseNum (cs : List Char) : Option (String × List Char) :=
  let p := match cs with
    | c :: r => if c = '-' then (['-'], r) else (([] : List Char), cs)
    | [] => ([], cs)
  match parseIntPart p.2 with
  | none => none
  | some (i, r1) =>
    match parseFracPart r1 with
    | none => none
    | some (f, r2) =>
      match parseExpPart r2 with
      | none => none
      | some (e, r3) => some (String.mk (p.1 ++ i ++ f ++ e), r3)

/-- Body of a JSON string after the opening quote; handles the common
escapes.  The \u escape is modelled as a failure; no line the pipeline
writes or reads contains escapes at all. -/
def parseStrChars : Nat → List Char → List Char → Option (String × List Char)
  | 0, _, _ => none
  | _ + 1, _, [] => none
  | fuel + 1, acc, c :: r =>
    if c = '"' then some (String.mk acc.reverse, r)
    else if c = '\\' then
      match r with
      | [] => none
      | e :: r2 =>
        if e = '"' || e = '\\' || e = '/' then parseStrChars fuel (e :: acc) r2
        else if e = 'n' then parseStrChars fuel ('\n' :: acc) r2
        else if e = 't' then parseStrChars fuel ('\t' :: acc) r2
        else if e = 'r' then parseStrChars fuel ('\r' :: acc) r2
        else if e = 'b' then parseStrChars fuel (Char.ofNat 8 :: acc) r2
        else if e = 'f' then parseStrChars fuel (Char.ofNat 12 :: acc) r2
        else none
    else parseStrChars fuel (c :: acc) r

mutual

/-- JSON value at the front of the input (after whitespace). -/
def parseVal : Nat → List Char → Option (JVal × List Char)
  | 0, _ => none
  | fuel + 1, cs =>
    match skipWs cs with
    | 'n' :: 'u' :: 'l' :: 'l' :: r => some (.jnull, r)
    | 't' :: 'r' :: 'u' :: 'e' :: r => some (.jbool true, r)
    | 'f' :: 'a' :: 'l' :: 's' :: 'e' :: r => some (.jbool false, r)
    | '"' :: r => (parseStrChars (r.length + 1) [] r).map (fun p => (.jstr p.1, p.2))
    | '[' :: r =>
      match skipWs r with
      | ']' :: r2 => some (.jarr [], r2)
      | r2 => parseArrItems fuel r2 []
    | '{' :: r =>
      match skipWs r with
      | '}' :: r2 => some (.jobj [], r2)
      | r2 => parseObjItems fuel r2 []
    | cs2 => (parseNum cs2).map (fun p => (.jnum p.1, p.2))

/-- Elements of a JSON array after the opening bracket. -/
def parseArrItems : Nat → List Char → List JVal → Option (JVal × List Char)
  | 0, _, _ => none
  | fuel + 1, cs, acc =>
    match parseVal fuel cs with
    | none => none
    | some (v, r) =>
      match skipWs r with
      | ',' :: r2 => parseArrItems fuel r2 (acc ++ [v])
      | ']' :: r2 => some (.jarr (acc ++ [v]), r2)
      | _ => none

/-- Members of a JSON object after the opening brace. -/
def parseObjItems : Nat → List Char →
    List (String × JVal) → Option (JVal × List Char)
  | 0, _, _ => none
  | fuel + 1, cs, acc =>
    match skipWs cs with
    | '"' :: r =>
      match parseStrChars (r.length + 1) [] r with
      | none => none
      | some (k, r1) =>
        match skipWs r1 with
        | ':' :: r2 =>
          match parseVal fuel r2 with
          | none => none
          | some (v, r3) =>
            match skipWs r3 with
            | ',' :: r4 => parseObjItems fuel r4 (acc ++ [(k, v)])
            | '}' :: r4 => some (.jobj (acc ++ [(k, v)]), r4)
            | _ => none
        | _ => none
    | _ => none

end

/-- json.loads: parse one JSON value and require only whitespace after it;
anything else raises (modelled by none). -/
def jsonLoads (s : String) : Option JVal :=
  match parseVal (s.length * 2 + 4) s.data with
  | none => none
  | some (v, rest) => if (skipWs rest).isEmpty then some v else none

/-- Body of a Python single-quoted string literal after the opening quote;
the pipeline's stored strings contain no escapes or quotes. -/
def parsePyQuoted : Nat → List Char → List Char → Option (String × List Char)
  | 0, _, _ => none
  | _ + 1, _, [] => none
  | fuel + 1, acc, c :: r =>
    if c = pyQuote then some (String.mk acc.reverse, r)
    else parsePyQuoted fuel (c :: acc) r

/-- Elements of a Python list-of-strings literal after the opening bracket,
in the exact shape str() produces: quoted items separated by comma-space. -/
def pyStrItems : Nat → List Char → List String → Option (List String)
  | 0, _, _ => none
  | fuel + 1, cs, acc =>
    match cs with
    | [] => none
    | c :: r =>
      if c = pyQuote then
        match parsePyQuoted (r.length + 1) [] r with
        | none => none
        | some (s, r1) =>
          match r1 with
          | ']' :: r2 => if r2.isEmpty then some (acc ++ [s]) else none
          | ',' :: ' ' :: r2 => pyStrItems fuel r2 (acc ++ [s])
          | _ => none
      else none

/-- eval of a stored str(inputs) text: a Python list-of-strings literal.
Any other shape raises inside the per-transaction try of the source's
graph builder, modelled by none. -/
def pyLitStrList (s : String) : Option (List String) :=
  match s.data with
  | '[' :: ']' :: r => if r.isEmpty then some [] else none
  | '[' :: r => pyStrItems (r.length + 1) r []
  | _ => none

/-- Characters up to the closing parenthesis of a tuple literal. -/
def spanNotParen : List Char → (List Char × List Char)
  | [] => ([], [])
  | c :: r =>
    if c = ')' then ([], c :: r)
    else
      let p := spanNotParen r
      (c :: p.1, p.2)

/-- Elements of a Python list-of-pairs literal after the opening bracket,
in the exact shape str() produces for the output list: a parenthesised
quoted address, comma-space, and the printed value. -/
def pyPairItems : Nat → List Char →
    List (String × String) → Option (List (String × String))
  | 0, _, _ => none
  | fuel + 1, cs, acc =>
    match cs with
    | '(' :: c :: r1 =>
      if c = pyQuote then
        match parsePyQuoted (r1.length + 1) [] r1 with
        | none => none
        | some (a, r2) =>
          match r2 with
          | ',' :: ' ' :: r3 =>
            let p := spanNotParen r3
            match p.2 with
            | ')' :: ']' :: r5 =>
              if r5.isEmpty then some (acc ++ [(a, String.mk p.1)]) else none
            | ')' :: ',' :: ' ' :: r5 => pyPairItems fuel r5 (acc ++ [(a, String.mk p.1)])
            | _ => none
          | _ => none
      else none
    | _ => none

/-- eval of a stored str(outputs) text: a Python list of (string, number)
tuple literals; the number is kept as text. -/
def pyLitPairList (s : String) : Option (List (String × String)) :=
  match s.data with
  | '[' :: ']' :: r => if r.isEmpty then some [] else none
  | '[' :: r => pyPairItems (r.length + 1) r []
  | _ => none

/-- The view of one stored transaction that the graph builder consumes:
txid, input address list, (output address, value text) list. -/
structure TxView where
  txid : String
  inputs : List String
  outputs : List (String × String)
deriving DecidableEq

/-- Python dict built from a JSON object: for duplicate keys the last
binding wins. -/
def jGet (fs : List (String × JVal)) (k : String) : Option JVal :=
  fs.foldl (fun acc p => if p.1 = k then some p.2 else acc) none

/-- Extract a string payload from a JSON value. -/
def jStr : JVal → Option String
  | .jstr s => some s
  | _ => none

/-- tx['txid'], eval(tx['inputs']), eval(tx['outputs']) of the source's
graph builder, on one value search_address returned.  Any missing key,
non-string field, or eval failure raises inside the per-transaction try
and skips the record, modelled by none. -/
def viewOfJson (j : JVal) : Option TxView :=
  match j with
  | .jobj fs =>
    match jGet fs "txid", jGet fs "inputs", jGet fs "outputs" with
    | some tv, some iv, some ov =>
      match jStr tv, (jStr iv).bind pyLitStrList, (jStr ov).bind pyLitPairList with
      | some t, some ins, some outs => some ⟨t, ins, outs⟩
      | _, _, _ => none
    | _, _, _ => none
  | _ => none

/-- open(file_name) against the store: the three files the pipeline owns
are readable (the index as the lines its triples encode); any other name
raises FileNotFoundError, modelled by none. -/
def readStoredFile (st : Store) (name : String) : Option (List String) :=
  if name = TRANSACTION_FILE then some st.txFile
  else if name = ADJACENCY_FILE then some st.adjFile
  else if name = ADDRESS_INDEX_FILE then
    some (st.idxFile.map (fun e => e.1 ++ "," ++ e.2.1 ++ "," ++ toString e.2.2))
  else none

/-- The scan of search_address over the index entries.  A matching entry
opens its file and reads the line at its recorded number; a missing file or
a json.loads failure raises, and the surrounding except returns the results
accumulated so far; a line number beyond the end of the file appends
nothing and the scan continues. -/
def searchLoop (st : Store) (address : String) :
    List (String × String × Nat) → List JVal → List JVal
  | [], acc => acc
  | e :: rest, acc =>
    if e.1 = address then
      match readStoredFile st e.2.1 with
      | none => acc
      | some lines =>
        match lines.get? e.2.2 with
        | none => searchLoop st address rest acc
        | some l =>
          match jsonLoads l with
          | none => acc
          | some j => searchLoop st address rest (acc ++ [j])
    else searchLoop st address rest acc

/-- search_address: scan the whole index file and collect the parsed
records of every entry recorded for the address. -/
def search_address (st : Store) (address : String) : List JVal :=
  searchLoop st address st.idxFile []

/-- The transaction views the graph builder obtains for one address: the
search results that survive field extraction and eval. -/
def lookupViews (st : Store) (address : String) : List TxView :=
  (search_address st address).filterMap viewOfJson

/-- The networkx.DiGraph value build_graph_from_address returns: the node
list and the edge list, an edge being (input, output, txid attribute). -/
structure NxGraph where
  nodes : List String
  edges : List (String × String × String)
deriving DecidableEq

/-- nx.DiGraph() with nothing added: no nodes, no edges. -/
def nxEmpty : NxGraph := ⟨[], []⟩

/-- Add a node if absent, as add_edge does for each endpoint. -/
def addNode (ns : List String) (x : String) : List String :=
  if x ∈ ns then ns else ns ++ [x]

/-- DiGraph edge update: add_edge(u, v, txid=t) overwrites the attribute of
an existing (u, v) edge and otherwise appends a new edge. -/
def setEdge : List (String × String × String) → String → String → String →
    List (String × String × String)
  | [], u, v, t => [(u, v, t)]
  | e :: r, u, v, t =>
    if e.1 = u ∧ e.2.1 = v then (u, v, t) :: r
    else e :: setEdge r u v t

/-- graph.add_edge(u, v, txid=t) on a DiGraph. -/
def addEdge (g : NxGraph) (u v t : String) : NxGraph :=
  ⟨addNode (addNode g.nodes u) v, setEdge g.edges u v t⟩

/-- The loop state of build_graph_from_address: the FIFO queue of
(address, depth) pairs, the visited set, and the graph built so far. -/
structure BfsState where
  queue : List (String × Int)
  visited : List String
  graph : NxGraph
deriving DecidableEq

/-- Innermost loop body: add the edge for one (input, output) pair and, when
the current depth is below the bound, enqueue the output one level deeper. -/
def addPair (d depth : Int) (txid i : String)
    (acc : NxGraph × List (String × Int)) (ov : String × String) :
    NxGraph × List (String × Int) :=
  (addEdge acc.1 i ov.1 txid,
   if d < depth then acc.2 ++ [(ov.1, d + 1)] else acc.2)

/-- The output loop for one input address. -/
def addInput (d depth : Int) (txid : String) (outs : List (String × String))
    (acc : NxGraph × List (String × Int)) (i : String) :
    NxGraph × List (String × Int) :=
  outs.foldl (addPair d depth txid i) acc

/-- The input loop for one returned transaction. -/
def expandTx (d depth : Int) (acc : NxGraph × List (String × Int))
    (t : TxView) : NxGraph × List (String × Int) :=
  t.inputs.foldl (addInput d depth t.txid t.outputs) acc

/-- One iteration of the while loop: pop the front pair; discard it when
the address is visited or its depth exceeds the bound; otherwise mark the
address visited, look it up and process every returned transaction.  On an
empty queue the state is returned unchanged (the loop has exited). -/
def bfsStep (lookup : String → List TxView) (depth : Int)
    (st : BfsState) : BfsState :=
  match st.queue with
  | [] => st
  | (a, d) :: rest =>
    if a ∈ st.visited ∨ depth < d then { st with queue := rest }
    else
      let r := (lookup a).foldl (expandTx d depth) (st.graph, [])
      { queue := rest ++ r.2, visited := a :: st.visited, graph := r.1 }

/-- The loop's starting state: queue [(address, 0)], nothing visited,
empty graph. -/
def initState (address : String) : BfsState :=
  ⟨[(address, 0)], [], nxEmpty⟩

/-- Run the while loop for a given number of iterations; extra iterations
beyond queue exhaustion change nothing. -/
def bfsRun (lookup : String → List TxView) (depth : Int) (fuel : Nat)
    (st : BfsState) : BfsState :=
  (bfsStep lookup depth)^[fuel] st

/-- The graph built from a seed address by the while loop over an abstract
lookup collaborator, run for a given number of iterations. -/
def buildGraphF (lookup : String → List TxView) (address : String)
    (depth : Int) (fuel : Nat) : NxGraph :=
  (bfsRun lookup depth fuel (initState address)).graph

/-- Size of the edge cross product of one transaction view, the number of
queue appends one expansion of it can cause. -/
def pairCount (t : TxView) : Nat := t.inputs.length * t.outputs.length

/-- Total queue appends the expansion of one lookup result can cause. -/
def enqCount (ts : List TxView) : Nat := (ts.map pairCount).sum

/-- Every transaction view any search over this store can produce: one scan
of all stored lines through the same json.loads plus eval pipeline. -/
def lineViews (st : Store) : List TxView :=
  (st.txFile ++ st.adjFile).filterMap (fun l => (jsonLoads l).bind viewOfJson)

/-- Largest cross product among the store's decodable records. -/
def maxPairCount (st : Store) : Nat :=
  ((lineViews st).map pairCount).foldr max 0

/-- Total number of output addresses among the store's decodable records,
a bound on the universe of addresses the loop can ever enqueue. -/
def outAddrCount (st : Store) : Nat :=
  ((lineViews st).map (fun t => t.outputs.length)).sum

/-- An iteration budget sufficient for the loop to exhaust its queue on
this store: strictly greater than (K + 1) * (C + 1), where K bounds the
appends per expansion (at most one index entry per search hit, each
expanding to at most the largest stored cross product) and C the number of
distinct enqueueable addresses plus the seed. -/
def fuelFor (st : Store) : Nat :=
  (st.idxFile.length * maxPairCount st + 1) * (outAddrCount st + 2) + 1

/-- build_graph_from_address over the store: the while loop driven by
search_address, run to queue exhaustion. -/
def build_graph_from_address (st : Store) (address : String)
    (depth : Int) : NxGraph :=
  buildGraphF (lookupViews st) address depth (fuelFor st)

/-- A one-transaction block: t1 spends from a1 to a2. -/
def tx1 : RpcTx := ⟨"t1", [⟨some "a1"⟩], [⟨some ["a2"], "5.0"⟩]⟩

/-- The block at height 1 of the concrete chain. -/
def block1 : RpcBlock := ⟨"00f0", 1, 100, [tx1], some "00f1"⟩

/-- A concrete chain source holding exactly block1 at height 1. -/
def rpc1 : ChainSource :=
  ⟨fun h => if h = 1 then some "00f0" else none,
   fun s => if s = "00f0" then some block1 else none, 1⟩

/-- The store after ingesting the height range [1, 1] once. -/
def st1 : Store := ingest_blocks rpc1 initialStore 1 (some 1)

/-- The store after ingesting the same height range a second time. -/
def st2 : Store := ingest_blocks rpc1 st1 1 (some 1)


/-- The funding transaction of the spec scenario: coinbase pays X in t1,
so X is indexed for t1 as an output address. -/
def tvFund : TxView := ⟨"t1", ["coinbase"], [("X", "5.0")]⟩

/-- The spending transaction of the spec scenario: X pays Y and Z in t2. -/
def tvSpend : TxView := ⟨"t2", ["X"], [("Y", "2.0"), ("Z", "3.0")]⟩

/-- The index semantics of the scenario store: X is a party to both stored
transactions (an output of t1, an input of t2), so a search for X returns
both; no other address is queried at depth 0. -/
def scenLookup : String → List TxView :=
  fun a => if a = "X" then [tvFund, tvSpend] else []

/-- First of two transactions both transferring from A to B. -/
def tvPar1 : TxView := ⟨"t1", ["A"], [("B", "1.0")]⟩

/-- Second of two transactions both transferring from A to B. -/
def tvPar2 : TxView := ⟨"t2", ["A"], [("B", "2.0")]⟩

/-- A lookup under which A is a party to two distinct transactions that
both transfer from A to B. -/
def parLookup : String → List TxView :=
  fun a => if a = "A" then [tvPar1, tvPar2] else []

/-- A transaction with one resolvable output and one vout whose
scriptPubKey has no addresses entry. -/
def tx5 : RpcTx := ⟨"t5", [⟨some "b1"⟩], [⟨some ["b2"], "1.0"⟩, ⟨none, "2.0"⟩]⟩

/-- The block containing tx5. -/
def block5 : RpcBlock := ⟨"00f5", 5, 500, [tx5], none⟩

/-- A chain source holding exactly block5. -/
def rpc5 : ChainSource :=
  ⟨fun _ => none, fun s => if s = "00f5" then some block5 else none, 5⟩

/-- The store after processing block5. -/
def st5 : Store := process_block rpc5 initialStore "00f5"


theorem bfsStep_of_queue_nil (lookup : String → List TxView) (depth : Int)
    (st : BfsState) (h : st.queue = []) : bfsStep lookup depth st = st := by
  unfold bfsStep
  rw [h]

theorem bfsIter_of_queue_nil (lookup : String → List TxView) (depth : Int)
    (n : Nat) (st : BfsState) (h : st.queue = []) :
    (bfsStep lookup depth)^[n] st = st := by
  induction n with
  | zero => rfl
  | succ k ih => rw [Function.iterate_succ_apply, bfsStep_of_queue_nil _ _ _ h, ih]

theorem fuelFor_pos (st : Store) : ∃ m, fuelFor st = m + 1 :=
  ⟨(st.idxFile.length * maxPairCount st + 1) * (outAddrCount st + 2), rfl⟩

/-- C2.  The round trip fails: process_block serializes a transaction
record as a comma-joined line, but search_address reads lines back with
json.loads, which cannot parse any such line.  After ingesting block1, the
record of t1 sits at line 1 of the transaction log and the index holds an
entry for a1 pointing there, yet json.loads of that exact line fails and
search_address returns no record at all, so the value read back never
equals the value appended. -/
theorem c2_serialization_read_back_fails :
    st1.txFile.get? 1 = some (serializeTxRec (mkRec "00f0" 1 100 tx1)) ∧
    ("a1", TRANSACTION_FILE, 1) ∈ st1.idxFile ∧
    jsonLoads (serializeTxRec (mkRec "00f0" 1 100 tx1)) = none ∧
    search_address st1 "a1" = [] :=
  ⟨by rfl, by decide, by rfl, by rfl⟩

/-- C4.  Ingestion is not idempotent: process_block performs no duplicate
check, so re-ingesting the height range [1, 1] appends the same transaction
record again; the log holds one record after the first run and two after
the second, the new line 2 repeating line 1 verbatim. -/
theorem c4_reingest_duplicates_records :
    txRecordCount st1 = 1 ∧ txRecordCount st2 = 2 ∧
    st2.txFile.get? 2 = st2.txFile.get? 1 :=
  ⟨by decide, by decide, by decide⟩

/-- C5.  An output whose script does not resolve to an address is dropped
entirely, not represented by the sentinel "unknown": the comprehension
guard removes the second vout of tx5, so its (b1, output) pair produces no
edge record and no index entry -- the adjacency file and the index after
processing block5 mention only b1 and b2. -/
theorem c5_unresolvable_output_dropped :
    extractOutputs tx5.vout = [("b2", "1.0")] ∧
    st5.adjFile = ["input_address,output_address,txid,block_hash",
      "b1,b2,t5,00f5"] ∧
    st5.idxFile = [("b1", TRANSACTION_FILE, 1), ("b2", TRANSACTION_FILE, 1)] :=
  ⟨by decide, by decide, by decide⟩

/-- C1 counterexample.  In the spec scenario the seed X is an output of the
stored funding transaction t1, so a search for X returns t1 and the loop
adds its coinbase→X edge to the depth-0 graph: an edge whose input address
differs from the seed. -/
theorem c1_cex_nonseed_edge_appears :
    ("coinbase", "X", "t1") ∈ (buildGraphF scenLookup "X" 0 5).edges ∧
    "coinbase" ≠ "X" :=
  ⟨by decide, by decide⟩

/-- C6 counterexample.  A is a party to two distinct stored transactions t1
and t2 that both transfer from A to B, but the DiGraph collapses them: the
resulting graph holds a single A→B edge labeled t2, and no edge labeled t1
survives. -/
theorem c6_cex_parallel_edges_collapse :
    tvPar1 ∈ parLookup "A" ∧ tvPar2 ∈ parLookup "A" ∧
    tvPar1.txid ≠ tvPar2.txid ∧
    (buildGraphF parLookup "A" 0 5).edges = [("A", "B", "t2")] ∧
    ("A", "B", "t1") ∉ (buildGraphF parLookup "A" 0 5).edges :=
  ⟨by decide, by decide, by decide, by decide, by decide⟩

/-- C9 counterexample.  build_graph_from_address performs no argument
validation: called with depth -1 it returns a graph (the empty one) instead
of rejecting the call. -/
theorem c9_cex_negative_depth_returns_graph :
    build_graph_from_address initialStore "a1" (-1) = nxEmpty := by rfl

/-- C9 amended.  For every store, seed and negative depth the call is not
rejected: the first popped pair already exceeds the depth bound, the queue
empties, and the empty graph is returned without error. -/
theorem c9_amended_negative_depth_empty_graph (st : Store) (address : String)
    (depth : Int) (h : depth < 0) :
    build_graph_from_address st address depth = nxEmpty := by
  have h1 : bfsStep (lookupViews st) depth (initState address) =
      ⟨[], [], nxEmpty⟩ := by
    simp [bfsStep, initState, h]
  obtain ⟨m, hm⟩ := fuelFor_pos st
  unfold build_graph_from_address buildGraphF bfsRun
  rw [hm, Function.iterate_succ_apply, h1, bfsIter_of_queue_nil _ _ _ _ rfl]

/-- C9 witness: the amended theorem at store initialStore, seed a1,
depth -1. -/
theorem c9_witness :
    (-1 : Int) < 0 ∧ build_graph_from_address initialStore "a1" (-1) = nxEmpty :=
  ⟨by decide, c9_amended_negative_depth_empty_graph initialStore "a1" (-1) (by decide)⟩

/-- C8 counterexample.  For a seed with zero index entries the returned
graph is empty: it does not contain the isolated seed node the claim
promises, because the loop never adds the seed to the graph. -/
theorem c8_cex_seed_node_absent :
    search_address initialStore "zz" = [] ∧
    (build_graph_from_address initialStore "zz" 1).nodes = [] :=
  ⟨by rfl, by rfl⟩

/-- C8 amended.  For every store, every seed whose search returns no
records, and every non-negative depth, the call returns without error the
empty graph: no nodes (in particular not the seed) and no edges. -/
theorem c8_amended_empty_lookup_gives_empty_graph (st : Store)
    (address : String) (depth : Int) (hd : 0 ≤ depth)
    (h : search_address st address = []) :
    build_graph_from_address st address depth = nxEmpty := by
  have hlv : lookupViews st address = [] := by
    unfold lookupViews
    rw [h]
    rfl
  have h1 : bfsStep (lookupViews st) depth (initState address) =
      ⟨[], [address], nxEmpty⟩ := by
    simp [bfsStep, initState, hlv, not_lt.mpr hd]
  obtain ⟨m, hm⟩ := fuelFor_pos st
  unfold build_graph_from_address buildGraphF bfsRun
  rw [hm, Function.iterate_succ_apply, h1, bfsIter_of_queue_nil _ _ _ _ rfl]

/-- C8 witness: the amended theorem at store initialStore, seed zz,
depth 0. -/
theorem c8_witness :
    (0 : Int) ≤ 0 ∧ search_address initialStore "zz" = [] ∧
    build_graph_from_address initialStore "zz" 0 = nxEmpty :=
  ⟨by decide, by rfl,
    c8_amended_empty_lookup_gives_empty_graph initialStore "zz" 0 (by decide) (by rfl)⟩

theorem mem_pairEvents (bhash txid : String) (off : Nat)
    (inputs : List String) (outputs : List (String × String)) (e : WEvent)
    (h : e ∈ pairEvents bhash txid off inputs outputs) :
    (∃ l, e = WEvent.adjAppend l) ∨
    (∃ a, e = WEvent.idxAppend a TRANSACTION_FILE off ∧
      (a ∈ inputs ∨ a ∈ outputs.map Prod.fst)) := by
  unfold pairEvents at h
  simp only [List.mem_flatMap, List.mem_cons, List.not_mem_nil, or_false] at h
  obtain ⟨i, hi, ov, hov, he⟩ := h
  rcases he with he | he | he
  · exact Or.inl ⟨_, he⟩
  · exact Or.inr ⟨i, he, Or.inl hi⟩
  · exact Or.inr ⟨ov.1, he, Or.inr (List.mem_map_of_mem _ hov)⟩

/-- The write-ordering invariant: every index entry of the store points
below the end of the transaction log, i.e. at a record already written. -/
def IdxBelow (st : Store) : Prop :=
  ∀ e ∈ st.idxFile, e.2.2 < st.txFile.length

instance (st : Store) : Decidable (IdxBelow st) := by
  unfold IdxBelow
  infer_instance

/-- Well-placed write sequences: relative to a running transaction-log
length, every index append points below the log end at its own position in
the sequence. -/
def EventsOK : Nat → List WEvent → Prop
  | _, [] => True
  | len, WEvent.txAppend _ :: r => EventsOK (len + 1) r
  | len, WEvent.adjAppend _ :: r => EventsOK len r
  | len, WEvent.idxAppend _ _ n :: r => n < len ∧ EventsOK len r

theorem eventsOK_append_of_no_tx (len : Nat) (xs ys : List WEvent)
    (hx : ∀ e ∈ xs, (∃ l, e = WEvent.adjAppend l) ∨
      ∃ a f n, e = WEvent.idxAppend a f n ∧ n < len)
    (hy : EventsOK len ys) : EventsOK len (xs ++ ys) := by
  induction xs with
  | nil => exact hy
  | cons e xs ih =>
    have he := hx e (List.mem_cons_self _ _)
    have hrest : EventsOK len (xs ++ ys) :=
      ih (fun x hx2 => hx x (List.mem_cons_of_mem _ hx2))
    rcases he with ⟨l, rfl⟩ | ⟨a, f, n, rfl, hn⟩
    · exact hrest
    · exact ⟨hn, hrest⟩

theorem eventsOK_txEvents (bhash : String) (height time : Int) (len : Nat)
    (tx : RpcTx) (ys : List WEvent) (hy : EventsOK (len + 1) ys) :
    EventsOK len (txEvents bhash height time len tx ++ ys) := by
  unfold txEvents
  show EventsOK (len + 1)
    (pairEvents bhash tx.txid len (extractInputs tx) (extractOutputs tx.vout) ++ ys)
  apply eventsOK_append_of_no_tx
  · intro e he
    rcases mem_pairEvents _ _ _ _ _ e he with ⟨l, rfl⟩ | ⟨a, rfl, _⟩
    · exact Or.inl ⟨l, rfl⟩
    · exact Or.inr ⟨a, TRANSACTION_FILE, len, rfl, Nat.lt_succ_self len⟩
  · exact hy

theorem eventsOK_blockTxEvents (bhash : String) (height time : Int) :
    ∀ (txs : List RpcTx) (len : Nat),
      EventsOK len (blockTxEvents bhash height time len txs) := by
  intro txs
  induction txs with
  | nil => intro len; trivial
  | cons tx rest ih =>
    intro len
    exact eventsOK_txEvents bhash height time len tx _ (ih (len + 1))


theorem eventsOK_prefix_idxBelow :
    ∀ (p s : List WEvent) (st : Store),
      EventsOK st.txFile.length (p ++ s) → IdxBelow st →
      IdxBelow (applyEvents st p) := by
  intro p
  induction p with
  | nil => intro s st _ h2; exact h2
  | cons e p ih =>
    intro s st h1 h2
    show IdxBelow (applyEvents (applyEvent st e) p)
    cases e with
    | txAppend l =>
      apply ih s
      · have h1' : EventsOK (st.txFile.length + 1) (p ++ s) := h1
        simpa [applyEvent] using h1'
      · intro x hx
        have hlt := h2 x (by simpa [applyEvent] using hx)
        simp only [applyEvent, List.length_append, List.length_cons,
          List.length_nil]
        omega
    | adjAppend l =>
      apply ih s
      · have h1' : EventsOK st.txFile.length (p ++ s) := h1
        simpa [applyEvent] using h1'
      · intro x hx
        exact h2 x (by simpa [applyEvent] using hx)
    | idxAppend a f n =>
      have h1' : n < st.txFile.length ∧ EventsOK st.txFile.length (p ++ s) := h1
      apply ih s
      · simpa [applyEvent] using h1'.2
      · intro x hx
        simp only [applyEvent, List.mem_append, List.mem_singleton] at hx
        rcases hx with hx | hx
        · simpa [applyEvent] using h2 x hx
        · subst hx
          simpa [applyEvent] using h1'.1

/-- C7.  Within a block, every transaction's record append is sequenced
strictly before the index appends for that transaction's addresses: along
every prefix of the write sequence process_block emits, each index entry
present points below the end of the transaction log, so at no point does an
index entry refer to a transaction record that has not yet been written. -/
theorem c7_record_append_precedes_index_writes (st : Store) (b : RpcBlock)
    (p s : List WEvent) (h0 : IdxBelow st)
    (h : processBlockEvents st.txFile.length b = p ++ s) :
    IdxBelow (applyEvents st p) := by
  apply eventsOK_prefix_idxBelow p s st _ h0
  rw [← h]
  exact eventsOK_blockTxEvents b.hash b.height b.time b.tx st.txFile.length

/-- C7 witness: the theorem at the initial store and block1, cutting the
write sequence right after the adjacency append and before the index
appends. -/
theorem c7_witness :
    IdxBelow initialStore ∧
    processBlockEvents initialStore.txFile.length block1 =
      [WEvent.txAppend (serializeTxRec (mkRec "00f0" 1 100 tx1)),
       WEvent.adjAppend "a1,a2,t1,00f0"] ++
      [WEvent.idxAppend "a1" TRANSACTION_FILE 1,
       WEvent.idxAppend "a2" TRANSACTION_FILE 1] ∧
    IdxBelow (applyEvents initialStore
      [WEvent.txAppend (serializeTxRec (mkRec "00f0" 1 100 tx1)),
       WEvent.adjAppend "a1,a2,t1,00f0"]) :=
  ⟨by decide, by decide,
    c7_record_append_precedes_index_writes initialStore block1
      [WEvent.txAppend (serializeTxRec (mkRec "00f0" 1 100 tx1)),
       WEvent.adjAppend "a1,a2,t1,00f0"]
      [WEvent.idxAppend "a1" TRANSACTION_FILE 1,
       WEvent.idxAppend "a2" TRANSACTION_FILE 1]
      (by decide) (by decide)⟩

/-- Index consistency: every index entry names the transaction log and
points at a line holding the serialization of a record in which the
entry's address appears among the inputs or among the output addresses. -/
def IndexOK (st : Store) : Prop :=
  ∀ e ∈ st.idxFile, e.2.1 = TRANSACTION_FILE ∧
    ∃ rec : TxRec, st.txFile.get? e.2.2 = some (serializeTxRec rec) ∧
      (e.1 ∈ rec.inputs ∨ e.1 ∈ rec.outputs.map Prod.fst)

theorem applyEvents_no_tx_txFile (evs : List WEvent) :
    ∀ (st : Store), (∀ e ∈ evs, ∀ l, e ≠ WEvent.txAppend l) →
      (applyEvents st evs).txFile = st.txFile := by
  induction evs with
  | nil => intro st _; rfl
  | cons e evs ih =>
    intro st h
    show (applyEvents (applyEvent st e) evs).txFile = st.txFile
    rw [ih _ (fun x hx => h x (List.mem_cons_of_mem _ hx))]
    cases e with
    | txAppend l => exact absurd rfl (h _ (List.mem_cons_self _ _) l)
    | adjAppend l => rfl
    | idxAppend a f n => rfl

theorem indexOK_apply_no_tx (evs : List WEvent) :
    ∀ (st : Store), IndexOK st →
      (∀ e ∈ evs,
        (∃ l, e = WEvent.adjAppend l) ∨
        (∃ a n, e = WEvent.idxAppend a TRANSACTION_FILE n ∧
          ∃ rec : TxRec, st.txFile.get? n = some (serializeTxRec rec) ∧
            (a ∈ rec.inputs ∨ a ∈ rec.outputs.map Prod.fst))) →
      IndexOK (applyEvents st evs) := by
  induction evs with
  | nil => intro st hst _; exact hst
  | cons e evs ih =>
    intro st hst hevs
    show IndexOK (applyEvents (applyEvent st e) evs)
    have he := hevs e (List.mem_cons_self _ _)
    have htx : (applyEvent st e).txFile = st.txFile := by
      rcases he with ⟨l, rfl⟩ | ⟨a, n, rfl, _⟩ <;> rfl
    apply ih
    · rcases he with ⟨l, rfl⟩ | ⟨a, n, rfl, rec, hrec, hmem⟩
      · intro x hx
        exact hst x hx
      · intro x hx
        simp only [applyEvent, List.mem_append, List.mem_singleton] at hx
        rcases hx with hx | hx
        · exact hst x hx
        · subst hx
          exact ⟨rfl, rec, hrec, hmem⟩
    · intro x hx
      rw [htx]
      exact hevs x (List.mem_cons_of_mem _ hx)

theorem get_of_append_lt (l l2 : List String) (n : Nat) (h : n < l.length) :
    (l ++ l2).get? n = l.get? n :=
  List.get?_append h

theorem get_some_lt (l : List String) (n : Nat) (a : String)
    (h : l.get? n = some a) : n < l.length := by
  by_contra hge
  rw [List.get?_eq_none.mpr (le_of_not_lt hge)] at h
  cases h

theorem indexOK_txEvents (st : Store) (bhash : String) (height time : Int)
    (tx : RpcTx) (h : IndexOK st) :
    IndexOK (applyEvents st (txEvents bhash height time st.txFile.length tx)) := by
  show IndexOK (applyEvents
    (applyEvent st (WEvent.txAppend (serializeTxRec (mkRec bhash height time tx))))
    (pairEvents bhash tx.txid st.txFile.length (extractInputs tx)
      (extractOutputs tx.vout)))
  have hget : (applyEvent st
      (WEvent.txAppend (serializeTxRec (mkRec bhash height time tx)))).txFile.get?
        st.txFile.length = some (serializeTxRec (mkRec bhash height time tx)) := by
    simp only [applyEvent]
    exact List.get?_concat_length _ _
  have h1 : IndexOK (applyEvent st
      (WEvent.txAppend (serializeTxRec (mkRec bhash height time tx)))) := by
    intro x hx
    obtain ⟨hf, rec, hr, hm⟩ := h x hx
    refine ⟨hf, rec, ?_, hm⟩
    have hlt : x.2.2 < st.txFile.length := get_some_lt _ _ _ hr
    simp only [applyEvent]
    rw [get_of_append_lt _ _ _ hlt]
    exact hr
  apply indexOK_apply_no_tx _ _ h1
  intro e he
  rcases mem_pairEvents _ _ _ _ _ e he with ⟨l, rfl⟩ | ⟨a, rfl, ha⟩
  · exact Or.inl ⟨l, rfl⟩
  · exact Or.inr ⟨a, st.txFile.length, rfl, mkRec bhash height time tx, hget, ha⟩

theorem txFile_length_txEvents (st : Store) (bhash : String)
    (height time : Int) (tx : RpcTx) :
    (applyEvents st
      (txEvents bhash height time st.txFile.length tx)).txFile.length
      = st.txFile.length + 1 := by
  show (applyEvents
    (applyEvent st (WEvent.txAppend (serializeTxRec (mkRec bhash height time tx))))
    (pairEvents bhash tx.txid st.txFile.length (extractInputs tx)
      (extractOutputs tx.vout))).txFile.length = st.txFile.length + 1
  rw [applyEvents_no_tx_txFile]
  · simp [applyEvent]
  · intro e he l
    rcases mem_pairEvents _ _ _ _ _ e he with ⟨l2, rfl⟩ | ⟨a, rfl, _⟩ <;> simp

theorem indexOK_blockTxEvents (bhash : String) (height time : Int) :
    ∀ (txs : List RpcTx) (st : Store), IndexOK st →
      IndexOK (applyEvents st
        (blockTxEvents bhash height time st.txFile.length txs)) := by
  intro txs
  induction txs with
  | nil => intro st h; exact h
  | cons tx rest ih =>
    intro st h
    show IndexOK (applyEvents st
      (txEvents bhash height time st.txFile.length tx ++
        blockTxEvents bhash height time (st.txFile.length + 1) rest))
    rw [applyEvents, List.foldl_append]
    have h1 := indexOK_txEvents st bhash height time tx h
    have h2 := txFile_length_txEvents st bhash height time tx
    have h3 := ih (applyEvents st (txEvents bhash height time st.txFile.length tx)) h1
    rw [h2] at h3
    exact h3

theorem indexOK_process_block (rpc : ChainSource) (st : Store)
    (bhash : String) (h : IndexOK st) :
    IndexOK (process_block rpc st bhash) := by
  unfold process_block
  cases rpc.getblock bhash with
  | none => exact h
  | some b => exact indexOK_blockTxEvents b.hash b.height b.time b.tx st h

theorem indexOK_ingestLoop (rpc : ChainSource) (latest : Int) :
    ∀ (fuel : Nat) (st : Store) (bhash : String) (height : Int),
      IndexOK st → IndexOK (ingestLoop rpc latest fuel st bhash height) := by
  intro fuel
  induction fuel with
  | zero => intro st _ _ h; exact h
  | succ k ih =>
    intro st bhash height h
    simp only [ingestLoop]
    split
    · split
      · exact indexOK_process_block rpc st bhash h
      · exact ih _ _ _ (indexOK_process_block rpc st bhash h)
    · exact h

theorem indexOK_ingest_blocks (rpc : ChainSource) (st : Store)
    (startBlock : Int) (endBlock : Option Int) (h : IndexOK st) :
    IndexOK (ingest_blocks rpc st startBlock endBlock) := by
  unfold ingest_blocks
  cases rpc.getblockhash startBlock with
  | none => exact h
  | some h0 => exact indexOK_ingestLoop rpc _ _ st h0 startBlock h

/-- A sequence of ingestion runs against the same store, each with its own
chain source and height range. -/
def runIngests (runs : List (ChainSource × Int × Option Int))
    (st : Store) : Store :=
  runs.foldl (fun s r => ingest_blocks r.1 s r.2.1 r.2.2) st

theorem indexOK_runIngests :
    ∀ (runs : List (ChainSource × Int × Option Int)) (st : Store),
      IndexOK st → IndexOK (runIngests runs st) := by
  intro runs
  induction runs with
  | nil => intro st h; exact h
  | cons r rest ih =>
    intro st h
    exact ih _ (indexOK_ingest_blocks r.1 st r.2.1 r.2.2 h)

theorem indexOK_initialStore : IndexOK initialStore := by
  intro e he
  exact absurd he (List.not_mem_nil e)

/-- The index entries search_address scans for an address: exactly those
whose first field equals the queried address. -/
def search_locations (st : Store) (address : String) :
    List (String × String × Nat) :=
  st.idxFile.filter (fun e => e.1 == address)

/-- C3.  After any sequence of ingestion runs from the initialized store,
every location the index holds for an address A names the transaction log
and points at a line holding the serialization of a transaction record in
which A appears among the input addresses or among the output addresses. -/
theorem c3_index_entries_point_at_member_records
    (runs : List (ChainSource × Int × Option Int)) (A : String)
    (e : String × String × Nat)
    (h : e ∈ search_locations (runIngests runs initialStore) A) :
    e.2.1 = TRANSACTION_FILE ∧
    ∃ rec : TxRec,
      (runIngests runs initialStore).txFile.get? e.2.2 =
        some (serializeTxRec rec) ∧
      (A ∈ rec.inputs ∨ A ∈ rec.outputs.map Prod.fst) := by
  have hmem : e ∈ (runIngests runs initialStore).idxFile ∧ e.1 = A := by
    unfold search_locations at h
    rw [List.mem_filter] at h
    exact ⟨h.1, by simpa using h.2⟩
  have hOK := indexOK_runIngests runs initialStore indexOK_initialStore
  obtain ⟨hf, rec, hr, hm⟩ := hOK e hmem.1
  rw [hmem.2] at hm
  exact ⟨hf, rec, hr, hm⟩

/-- C3 witness: the theorem at the single run ingesting block1, address a1,
and the index entry recorded for it. -/
theorem c3_witness :
    (("a1", TRANSACTION_FILE, 1) ∈
      search_locations (runIngests [(rpc1, 1, some 1)] initialStore) "a1") ∧
    (("a1", TRANSACTION_FILE, 1).2.1 = TRANSACTION_FILE ∧
      ∃ rec : TxRec,
        (runIngests [(rpc1, 1, some 1)] initialStore).txFile.get? 1 =
          some (serializeTxRec rec) ∧
        ("a1" ∈ rec.inputs ∨ "a1" ∈ rec.outputs.map Prod.fst)) :=
  ⟨by decide,
    c3_index_entries_point_at_member_records [(rpc1, 1, some 1)] "a1"
      ("a1", TRANSACTION_FILE, 1) (by decide)⟩

theorem mem_setEdge :
    ∀ (l : List (String × String × String)) (u v t : String)
      (x : String × String × String),
      x ∈ setEdge l u v t → x ∈ l ∨ x = (u, v, t) := by
  intro l
  induction l with
  | nil =>
    intro u v t x hx
    simp only [setEdge, List.mem_singleton] at hx
    exact Or.inr hx
  | cons e r ih =>
    intro u v t x hx
    simp only [setEdge] at hx
    by_cases hc : e.1 = u ∧ e.2.1 = v
    · rw [if_pos hc] at hx
      rcases List.mem_cons.mp hx with hx | hx
      · exact Or.inr hx
      · exact Or.inl (List.mem_cons_of_mem _ hx)
    · rw [if_neg hc] at hx
      rcases List.mem_cons.mp hx with hx | hx
      · exact Or.inl (hx ▸ List.mem_cons_self _ _)
      · rcases ih u v t x hx with h | h
        · exact Or.inl (List.mem_cons_of_mem _ h)
        · exact Or.inr h

theorem mem_edges_foldl_addPair (d depth : Int) (txid i : String) :
    ∀ (outs : List (String × String)) (acc : NxGraph × List (String × Int))
      (x : String × String × String),
      x ∈ (outs.foldl (addPair d depth txid i) acc).1.edges →
      x ∈ acc.1.edges ∨ ∃ ov ∈ outs, x = (i, ov.1, txid) := by
  intro outs
  induction outs with
  | nil => intro acc x hx; exact Or.inl hx
  | cons ov outs ih =>
    intro acc x hx
    rcases ih (addPair d depth txid i acc ov) x hx with hx2 | ⟨ov2, hov2, rfl⟩
    · rcases mem_setEdge acc.1.edges i ov.1 txid x hx2 with hx3 | rfl
      · exact Or.inl hx3
      · exact Or.inr ⟨ov, List.mem_cons_self _ _, rfl⟩
    · exact Or.inr ⟨ov2, List.mem_cons_of_mem _ hov2, rfl⟩

theorem mem_edges_foldl_addInput (d depth : Int) (txid : String)
    (outs : List (String × String)) :
    ∀ (ins : List String) (acc : NxGraph × List (String × Int))
      (x : String × String × String),
      x ∈ (ins.foldl (addInput d depth txid outs) acc).1.edges →
      x ∈ acc.1.edges ∨ ∃ i ∈ ins, ∃ ov ∈ outs, x = (i, ov.1, txid) := by
  intro ins
  induction ins with
  | nil => intro acc x hx; exact Or.inl hx
  | cons i ins ih =>
    intro acc x hx
    rcases ih (addInput d depth txid outs acc i) x hx with hx2 | ⟨i2, hi2, hrest⟩
    · rcases mem_edges_foldl_addPair d depth txid i outs acc x hx2 with hx3 | ⟨ov, hov, rfl⟩
      · exact Or.inl hx3
      · exact Or.inr ⟨i, List.mem_cons_self _ _, ov, hov, rfl⟩
    · exact Or.inr ⟨i2, List.mem_cons_of_mem _ hi2, hrest⟩

theorem mem_edges_foldl_expandTx (d depth : Int) :
    ∀ (txs : List TxView) (acc : NxGraph × List (String × Int))
      (x : String × String × String),
      x ∈ (txs.foldl (expandTx d depth) acc).1.edges →
      x ∈ acc.1.edges ∨ ∃ tv ∈ txs, x.1 ∈ tv.inputs ∧
        x.2.1 ∈ tv.outputs.map Prod.fst ∧ x.2.2 = tv.txid := by
  intro txs
  induction txs with
  | nil => intro acc x hx; exact Or.inl hx
  | cons tv txs ih =>
    intro acc x hx
    rcases ih (expandTx d depth acc tv) x hx with hx2 | ⟨tv2, htv2, hrest⟩
    · rcases mem_edges_foldl_addInput d depth tv.txid tv.outputs tv.inputs acc x hx2
        with hx3 | ⟨i, hi, ov, hov, rfl⟩
      · exact Or.inl hx3
      · exact Or.inr ⟨tv, List.mem_cons_self _ _, hi,
          (by simpa using List.mem_map_of_mem Prod.fst hov), rfl⟩
    · exact Or.inr ⟨tv2, List.mem_cons_of_mem _ htv2, hrest⟩

theorem foldl_addPair_snd_of_not_lt (d depth : Int) (h : ¬ d < depth)
    (txid i : String) :
    ∀ (outs : List (String × String)) (acc : NxGraph × List (String × Int)),
      (outs.foldl (addPair d depth txid i) acc).2 = acc.2 := by
  intro outs
  induction outs with
  | nil => intro acc; rfl
  | cons ov outs ih =>
    intro acc
    rw [List.foldl_cons, ih]
    simp [addPair, h]

theorem foldl_addInput_snd_of_not_lt (d depth : Int) (h : ¬ d < depth)
    (txid : String) (outs : List (String × String)) :
    ∀ (ins : List String) (acc : NxGraph × List (String × Int)),
      (ins.foldl (addInput d depth txid outs) acc).2 = acc.2 := by
  intro ins
  induction ins with
  | nil => intro acc; rfl
  | cons i ins ih =>
    intro acc
    rw [List.foldl_cons, ih]
    exact foldl_addPair_snd_of_not_lt d depth h txid i outs acc

theorem foldl_expandTx_snd_of_not_lt (d depth : Int) (h : ¬ d < depth) :
    ∀ (txs : List TxView) (acc : NxGraph × List (String × Int)),
      (txs.foldl (expandTx d depth) acc).2 = acc.2 := by
  intro txs
  induction txs with
  | nil => intro acc; rfl
  | cons tv txs ih =>
    intro acc
    rw [List.foldl_cons, ih]
    exact foldl_addInput_snd_of_not_lt d depth h tv.txid tv.outputs tv.inputs acc

/-- The depth-0 loop invariant: every queued pair is the seed at depth 0,
and every edge built so far stems from one of the seed's transactions. -/
def C1Inv (lookup : String → List TxView) (A : String) (st : BfsState) : Prop :=
  (∀ p ∈ st.queue, p = (A, (0 : Int))) ∧
  (∀ x ∈ st.graph.edges, ∃ tv ∈ lookup A,
    x.1 ∈ tv.inputs ∧ x.2.1 ∈ tv.outputs.map Prod.fst ∧ x.2.2 = tv.txid)

theorem c1Inv_step (lookup : String → List TxView) (A : String)
    (st : BfsState) (h : C1Inv lookup A st) :
    C1Inv lookup A (bfsStep lookup 0 st) := by
  obtain ⟨q, vis, g⟩ := st
  obtain ⟨hq, he⟩ := h
  cases q with
  | nil => exact ⟨hq, he⟩
  | cons p rest =>
    have hp : p = (A, (0 : Int)) := hq p (List.mem_cons_self _ _)
    subst hp
    show C1Inv lookup A
      (if A ∈ vis ∨ (0 : Int) < 0 then ⟨rest, vis, g⟩
       else ⟨rest ++ ((lookup A).foldl (expandTx 0 0) (g, [])).2,
         A :: vis, ((lookup A).foldl (expandTx 0 0) (g, [])).1⟩)
    by_cases hc : A ∈ vis ∨ (0 : Int) < 0
    · rw [if_pos hc]
      exact ⟨fun p hp => hq p (List.mem_cons_of_mem _ hp), he⟩
    · rw [if_neg hc]
      constructor
      · intro p hp
        rw [foldl_expandTx_snd_of_not_lt 0 0 (by omega) (lookup A) (g, []),
          List.append_nil] at hp
        exact hq p (List.mem_cons_of_mem _ hp)
      · intro x hx
        rcases mem_edges_foldl_expandTx 0 0 (lookup A) (g, []) x hx with hx2 | hx2
        · exact he x hx2
        · exact hx2

theorem c1Inv_iter (lookup : String → List TxView) (A : String) (n : Nat)
    (st : BfsState) (h : C1Inv lookup A st) :
    C1Inv lookup A ((bfsStep lookup 0)^[n] st) := by
  induction n generalizing st with
  | zero => exact h
  | succ k ih =>
    rw [Function.iterate_succ_apply]
    exact ih _ (c1Inv_step lookup A st h)

/-- C1 amended.  At depth 0 only the seed is ever expanded, and the graph's
edges are exactly the (input, output, txid) triples of the transactions a
search for the seed returns -- i.e. of every stored transaction in which
the seed appears as an input or as an output address.  In particular an
edge whose input address differs from the seed appears whenever the seed
occurs as an output address of a stored transaction; the claim's exclusion
of such edges fails (see the counterexample). -/
theorem c1_amended_depth0_edges_from_seed_transactions
    (lookup : String → List TxView) (A : String) (fuel : Nat)
    (u v t : String)
    (h : (u, v, t) ∈ (buildGraphF lookup A 0 fuel).edges) :
    ∃ tv ∈ lookup A, u ∈ tv.inputs ∧ v ∈ tv.outputs.map Prod.fst ∧
      t = tv.txid := by
  have hinit : C1Inv lookup A (initState A) := by
    constructor
    · intro p hp
      simpa [initState] using hp
    · intro x hx
      exact absurd hx (List.not_mem_nil x)
  have hinv := c1Inv_iter lookup A fuel (initState A) hinit
  obtain ⟨tv, htv, h1, h2, h3⟩ := hinv.2 (u, v, t) h
  exact ⟨tv, htv, h1, h2, h3⟩

/-- C1 witness: the amended theorem at the scenario lookup, seed X, the
X→Y edge of t2. -/
theorem c1_amended_witness :
    (("X", "Y", "t2") ∈ (buildGraphF scenLookup "X" 0 5).edges) ∧
    ∃ tv ∈ scenLookup "X", "X" ∈ tv.inputs ∧ "Y" ∈ tv.outputs.map Prod.fst ∧
      "t2" = tv.txid :=
  ⟨by decide,
    c1_amended_depth0_edges_from_seed_transactions scenLookup "X" 5 "X" "Y" "t2"
      (by decide)⟩

/-- The ordered (input, output) endpoint pair of each edge, in edge-list
order. -/
def edgeKeys (g : NxGraph) : List (String × String) :=
  g.edges.map (fun e => (e.1, e.2.1))

theorem mem_keys_setEdge :
    ∀ (l : List (String × String × String)) (u v t : String)
      (k : String × String),
      k ∈ (setEdge l u v t).map (fun e => (e.1, e.2.1)) →
      k ∈ l.map (fun e => (e.1, e.2.1)) ∨ k = (u, v) := by
  intro l
  induction l with
  | nil =>
    intro u v t k hk
    simp only [setEdge, List.map_cons, List.map_nil, List.mem_singleton] at hk
    exact Or.inr hk
  | cons e r ih =>
    intro u v t k hk
    simp only [setEdge] at hk
    by_cases hc : e.1 = u ∧ e.2.1 = v
    · rw [if_pos hc] at hk
      simp only [List.map_cons, List.mem_cons] at hk
      rcases hk with hk | hk
      · exact Or.inr hk
      · exact Or.inl (by simp only [List.map_cons, List.mem_cons]; exact Or.inr hk)
    · rw [if_neg hc] at hk
      simp only [List.map_cons, List.mem_cons] at hk
      rcases hk with hk | hk
      · exact Or.inl (by simp only [List.map_cons, List.mem_cons]; exact Or.inl hk)
      · rcases ih u v t k hk with h | h
        · exact Or.inl (by simp only [List.map_cons, List.mem_cons]; exact Or.inr h)
        · exact Or.inr h

theorem nodup_keys_setEdge :
    ∀ (l : List (String × String × String)) (u v t : String),
      (l.map (fun e => (e.1, e.2.1))).Nodup →
      ((setEdge l u v t).map (fun e => (e.1, e.2.1))).Nodup := by
  intro l
  induction l with
  | nil => intro u v t _; simp [setEdge]
  | cons e r ih =>
    intro u v t hnd
    simp only [List.map_cons, List.nodup_cons] at hnd
    obtain ⟨hne, hnd2⟩ := hnd
    simp only [setEdge]
    by_cases hc : e.1 = u ∧ e.2.1 = v
    · rw [if_pos hc]
      simp only [List.map_cons, List.nodup_cons]
      refine ⟨?_, hnd2⟩
      rw [← hc.1, ← hc.2]
      exact hne
    · rw [if_neg hc]
      simp only [List.map_cons, List.nodup_cons]
      refine ⟨?_, ih u v t hnd2⟩
      intro hmem
      rcases mem_keys_setEdge r u v t _ hmem with hm | hm
      · exact hne hm
      · exact hc ⟨(Prod.ext_iff.mp hm).1, (Prod.ext_iff.mp hm).2⟩

theorem nodup_keys_addEdge (g : NxGraph) (u v t : String)
    (h : (edgeKeys g).Nodup) : (edgeKeys (addEdge g u v t)).Nodup :=
  nodup_keys_setEdge g.edges u v t h

theorem nodup_keys_foldl_addPair (d depth : Int) (txid i : String) :
    ∀ (outs : List (String × String)) (acc : NxGraph × List (String × Int)),
      (edgeKeys acc.1).Nodup →
      (edgeKeys (outs.foldl (addPair d depth txid i) acc).1).Nodup := by
  intro outs
  induction outs with
  | nil => intro acc h; exact h
  | cons ov outs ih =>
    intro acc h
    exact ih (addPair d depth txid i acc ov) (nodup_keys_addEdge acc.1 i ov.1 txid h)

theorem nodup_keys_foldl_addInput (d depth : Int) (txid : String)
    (outs : List (String × String)) :
    ∀ (ins : List String) (acc : NxGraph × List (String × Int)),
      (edgeKeys acc.1).Nodup →
      (edgeKeys (ins.foldl (addInput d depth txid outs) acc).1).Nodup := by
  intro ins
  induction ins with
  | nil => intro acc h; exact h
  | cons i ins ih =>
    intro acc h
    exact ih (addInput d depth txid outs acc i)
      (nodup_keys_foldl_addPair d depth txid i outs acc h)

theorem nodup_keys_foldl_expandTx (d depth : Int) :
    ∀ (txs : List TxView) (acc : NxGraph × List (String × Int)),
      (edgeKeys acc.1).Nodup →
      (edgeKeys (txs.foldl (expandTx d depth) acc).1).Nodup := by
  intro txs
  induction txs with
  | nil => intro acc h; exact h
  | cons tv txs ih =>
    intro acc h
    exact ih (expandTx d depth acc tv)
      (nodup_keys_foldl_addInput d depth tv.txid tv.outputs tv.inputs acc h)

theorem nodup_keys_bfsStep (lookup : String → List TxView) (depth : Int)
    (st : BfsState) (h : (edgeKeys st.graph).Nodup) :
    (edgeKeys (bfsStep lookup depth st).graph).Nodup := by
  obtain ⟨q, vis, g⟩ := st
  cases q with
  | nil => exact h
  | cons p rest =>
    obtain ⟨a, d⟩ := p
    show (edgeKeys (if a ∈ vis ∨ depth < d then (⟨rest, vis, g⟩ : BfsState)
      else ⟨rest ++ ((lookup a).foldl (expandTx d depth) (g, [])).2, a :: vis,
        ((lookup a).foldl (expandTx d depth) (g, [])).1⟩).graph).Nodup
    by_cases hc : a ∈ vis ∨ depth < d
    · rw [if_pos hc]
      exact h
    · rw [if_neg hc]
      exact nodup_keys_foldl_expandTx d depth (lookup a) (g, []) h

/-- C6 amended.  The graph build_graph_from_address produces is a simple
directed graph, not a multigraph: for every lookup, seed, depth and
iteration count, the edge list never holds two edges with the same ordered
(input, output) endpoint pair -- a repeated transfer between the same two
addresses overwrites the txid label of the existing edge (DiGraph add_edge
semantics), so distinct transaction labels are not preserved (see the
counterexample). -/
theorem c6_amended_at_most_one_edge_per_pair
    (lookup : String → List TxView) (A : String) (depth : Int) (fuel : Nat) :
    (edgeKeys (buildGraphF lookup A depth fuel)).Nodup := by
  have hstep : ∀ (n : Nat) (st : BfsState), (edgeKeys st.graph).Nodup →
      (edgeKeys ((bfsStep lookup depth)^[n] st).graph).Nodup := by
    intro n
    induction n with
    | zero => intro st h; exact h
    | succ k ih =>
      intro st h
      rw [Function.iterate_succ_apply]
      exact ih _ (nodup_keys_bfsStep lookup depth st h)
  exact hstep fuel (initState A) (by simp [initState, nxEmpty, edgeKeys])

theorem foldl_addPair_snd_length (d depth : Int) (txid i : String) :
    ∀ (outs : List (String × String)) (acc : NxGraph × List (String × Int)),
      (outs.foldl (addPair d depth txid i) acc).2.length ≤
        acc.2.length + outs.length := by
  intro outs
  induction outs with
  | nil => intro acc; simp
  | cons ov outs ih =>
    intro acc
    have h1 := ih (addPair d depth txid i acc ov)
    have h2 : (addPair d depth txid i acc ov).2.length ≤ acc.2.length + 1 := by
      unfold addPair
      by_cases hc : d < depth
      · rw [if_pos hc]
        simp
      · rw [if_neg hc]
        exact Nat.le_succ _
    simp only [List.foldl_cons, List.length_cons]
    omega

theorem foldl_addInput_snd_length (d depth : Int) (txid : String)
    (outs : List (String × String)) :
    ∀ (ins : List String) (acc : NxGraph × List (String × Int)),
      (ins.foldl (addInput d depth txid outs) acc).2.length ≤
        acc.2.length + ins.length * outs.length := by
  intro ins
  induction ins with
  | nil => intro acc; simp
  | cons i ins ih =>
    intro acc
    have h1 := ih (addInput d depth txid outs acc i)
    have h2 : (addInput d depth txid outs acc i).2.length ≤
        acc.2.length + outs.length :=
      foldl_addPair_snd_length d depth txid i outs acc
    simp only [List.foldl_cons, List.length_cons, Nat.succ_mul]
    show (ins.foldl (addInput d depth txid outs)
      (addInput d depth txid outs acc i)).2.length ≤
        acc.2.length + (ins.length * outs.length + outs.length)
    omega

theorem foldl_expandTx_snd_length (d depth : Int) :
    ∀ (txs : List TxView) (acc : NxGraph × List (String × Int)),
      (txs.foldl (expandTx d depth) acc).2.length ≤
        acc.2.length + enqCount txs := by
  intro txs
  induction txs with
  | nil => intro acc; simp [enqCount]
  | cons tv txs ih =>
    intro acc
    have h1 := ih (expandTx d depth acc tv)
    have h2 := foldl_addInput_snd_length d depth tv.txid tv.outputs tv.inputs acc
    simp only [List.foldl_cons, enqCount, List.map_cons, List.sum_cons]
    show (txs.foldl (expandTx d depth) (expandTx d depth acc tv)).2.length ≤
      acc.2.length + (pairCount tv + (txs.map pairCount).sum)
    have h3 : (expandTx d depth acc tv).2.length ≤ acc.2.length + pairCount tv := h2
    have h4 : (txs.foldl (expandTx d depth) (expandTx d depth acc tv)).2.length ≤
        (expandTx d depth acc tv).2.length + enqCount txs := h1
    simp only [enqCount] at h4
    omega

theorem mem_snd_foldl_addPair (d depth : Int) (txid i : String) :
    ∀ (outs : List (String × String)) (acc : NxGraph × List (String × Int))
      (p : String × Int),
      p ∈ (outs.foldl (addPair d depth txid i) acc).2 →
      p ∈ acc.2 ∨ ∃ ov ∈ outs, p = (ov.1, d + 1) := by
  intro outs
  induction outs with
  | nil => intro acc p hp; exact Or.inl hp
  | cons ov outs ih =>
    intro acc p hp
    rcases ih (addPair d depth txid i acc ov) p hp with hp2 | ⟨ov2, hov2, rfl⟩
    · unfold addPair at hp2
      by_cases hc : d < depth
      · rw [if_pos hc] at hp2
        rcases List.mem_append.mp hp2 with hp3 | hp3
        · exact Or.inl hp3
        · exact Or.inr ⟨ov, List.mem_cons_self _ _,
            (List.mem_singleton.mp hp3)⟩
      · rw [if_neg hc] at hp2
        exact Or.inl hp2
    · exact Or.inr ⟨ov2, List.mem_cons_of_mem _ hov2, rfl⟩

theorem mem_snd_foldl_addInput (d depth : Int) (txid : String)
    (outs : List (String × String)) :
    ∀ (ins : List String) (acc : NxGraph × List (String × Int))
      (p : String × Int),
      p ∈ (ins.foldl (addInput d depth txid outs) acc).2 →
      p ∈ acc.2 ∨ ∃ ov ∈ outs, p = (ov.1, d + 1) := by
  intro ins
  induction ins with
  | nil => intro acc p hp; exact Or.inl hp
  | cons i ins ih =>
    intro acc p hp
    rcases ih (addInput d depth txid outs acc i) p hp with hp2 | hp2
    · exact mem_snd_foldl_addPair d depth txid i outs acc p hp2
    · exact Or.inr hp2

theorem mem_snd_foldl_expandTx (d depth : Int) :
    ∀ (txs : List TxView) (acc : NxGraph × List (String × Int))
      (p : String × Int),
      p ∈ (txs.foldl (expandTx d depth) acc).2 →
      p ∈ acc.2 ∨ ∃ tv ∈ txs, ∃ ov ∈ tv.outputs, p = (ov.1, d + 1) := by
  intro txs
  induction txs with
  | nil => intro acc p hp; exact Or.inl hp
  | cons tv txs ih =>
    intro acc p hp
    rcases ih (expandTx d depth acc tv) p hp with hp2 | ⟨tv2, htv2, hrest⟩
    · rcases mem_snd_foldl_addInput d depth tv.txid tv.outputs tv.inputs acc p hp2
        with hp3 | ⟨ov, hov, rfl⟩
      · exact Or.inl hp3
      · exact Or.inr ⟨tv, List.mem_cons_self _ _, ov, hov, rfl⟩
    · exact Or.inr ⟨tv2, List.mem_cons_of_mem _ htv2, hrest⟩

/-- Termination measure for the BFS loop: a weighted count of the
addresses the loop can still expand (the finite universe U of enqueueable
addresses plus everything currently queued, minus the visited set), plus
the queue length. -/
def bfsMeasure (U : List String) (K : Nat) (st : BfsState) : Nat :=
  (K + 1) *
    ((U ++ st.queue.map Prod.fst).toFinset \ st.visited.toFinset).card +
    st.queue.length

theorem bfsMeasure_step_lt (lookup : String → List TxView) (depth : Int)
    (U : List String) (K : Nat)
    (hU : ∀ (a : String) (t : TxView), t ∈ lookup a →
      ∀ o ∈ t.outputs.map Prod.fst, o ∈ U)
    (hK : ∀ a : String, enqCount (lookup a) ≤ K)
    (st : BfsState) (hq : st.queue ≠ []) :
    bfsMeasure U K (bfsStep lookup depth st) < bfsMeasure U K st := by
  obtain ⟨q, vis, g⟩ := st
  cases q with
  | nil => exact absurd rfl hq
  | cons p rest =>
    obtain ⟨a, d⟩ := p
    show bfsMeasure U K
      (if a ∈ vis ∨ depth < d then (⟨rest, vis, g⟩ : BfsState)
       else ⟨rest ++ ((lookup a).foldl (expandTx d depth) (g, [])).2, a :: vis,
         ((lookup a).foldl (expandTx d depth) (g, [])).1⟩) <
      bfsMeasure U K ⟨(a, d) :: rest, vis, g⟩
    by_cases hc : a ∈ vis ∨ depth < d
    · rw [if_pos hc]
      have hsub : ((U ++ rest.map Prod.fst).toFinset \ vis.toFinset) ⊆
          ((U ++ ((a, d) :: rest).map Prod.fst).toFinset \ vis.toFinset) := by
        apply Finset.sdiff_subset_sdiff _ (Finset.Subset.refl _)
        intro x hx
        rw [List.mem_toFinset, List.mem_append] at hx
        rw [List.mem_toFinset, List.mem_append, List.map_cons, List.mem_cons]
        tauto
      have hcard := Finset.card_le_card hsub
      have hmul := Nat.mul_le_mul_left (K + 1) hcard
      simp only [bfsMeasure, List.length_cons]
      omega
    · rw [if_neg hc]
      push_neg at hc
      obtain ⟨hav, hdd⟩ := hc
      set newQ := ((lookup a).foldl (expandTx d depth) (g, [])).2 with hnewQ
      have hlen : newQ.length ≤ K := by
        have h1 : newQ.length ≤ enqCount (lookup a) := by
          have h2 := foldl_expandTx_snd_length d depth (lookup a) (g, [])
          simpa using h2
        exact le_trans h1 (hK a)
      have haS : a ∈
          ((U ++ ((a, d) :: rest).map Prod.fst).toFinset \ vis.toFinset) := by
        simp only [Finset.mem_sdiff, List.mem_toFinset, List.mem_append,
          List.map_cons, List.mem_cons]
        exact ⟨Or.inr (Or.inl trivial), hav⟩
      have hsub :
          ((U ++ (rest ++ newQ).map Prod.fst).toFinset \ (a :: vis).toFinset) ⊆
          (((U ++ ((a, d) :: rest).map Prod.fst).toFinset \
            vis.toFinset).erase a) := by
        intro x hx
        simp only [Finset.mem_sdiff, List.mem_toFinset, List.mem_append,
          List.map_append, List.toFinset_cons, Finset.mem_insert,
          List.map_cons, List.mem_cons, Finset.mem_erase, not_or] at hx ⊢
        obtain ⟨hx1, hxa, hxv⟩ := hx
        refine ⟨hxa, ?_, hxv⟩
        rcases hx1 with hx1 | hx1 | hx1
        · exact Or.inl hx1
        · exact Or.inr (Or.inr hx1)
        · obtain ⟨p, hp, rfl⟩ := List.mem_map.mp hx1
          rcases mem_snd_foldl_expandTx d depth (lookup a) (g, []) p hp
            with hp2 | ⟨tv, htv, ov, hov, rfl⟩
          · exact absurd hp2 (List.not_mem_nil p)
          · exact Or.inl (hU a tv htv ov.1 (List.mem_map_of_mem _ hov))
      have hcard1 := Finset.card_le_card hsub
      have hcard2 :
          ((((U ++ ((a, d) :: rest).map Prod.fst).toFinset \
            vis.toFinset)).erase a).card <
          ((U ++ ((a, d) :: rest).map Prod.fst).toFinset \ vis.toFinset).card :=
        Finset.card_erase_lt_of_mem haS
      have hmul : (K + 1) *
          (((U ++ (rest ++ newQ).map Prod.fst).toFinset \
            (a :: vis).toFinset).card + 1) ≤
          (K + 1) *
          ((U ++ ((a, d) :: rest).map Prod.fst).toFinset \ vis.toFinset).card :=
        Nat.mul_le_mul_left _ (by omega)
      rw [Nat.mul_add, Nat.mul_one] at hmul
      simp only [bfsMeasure, List.length_append, List.length_cons]
      omega

theorem bfs_reaches_empty (lookup : String → List TxView) (depth : Int)
    (U : List String) (K : Nat)
    (hU : ∀ (a : String) (t : TxView), t ∈ lookup a →
      ∀ o ∈ t.outputs.map Prod.fst, o ∈ U)
    (hK : ∀ a : String, enqCount (lookup a) ≤ K) :
    ∀ (m : Nat) (st : BfsState), bfsMeasure U K st ≤ m →
      ∃ n : Nat, ((bfsStep lookup depth)^[n] st).queue = [] := by
  intro m
  induction m with
  | zero =>
    intro st hm
    have h0 : bfsMeasure U K st = 0 := Nat.le_zero.mp hm
    unfold bfsMeasure at h0
    refine ⟨0, List.length_eq_zero.mp ?_⟩
    simp only [Function.iterate_zero, id_eq]
    omega
  | succ k ih =>
    intro st hm
    by_cases hq : st.queue = []
    · exact ⟨0, hq⟩
    · have hlt := bfsMeasure_step_lt lookup depth U K hU hK st hq
      obtain ⟨n, hn⟩ := ih (bfsStep lookup depth st) (by omega)
      refine ⟨n + 1, ?_⟩
      rw [Function.iterate_succ_apply]
      exact hn

/-- C10.  The BFS loop of build_graph_from_address terminates whenever the
lookup collaborator draws from a finite store: if every address one of its
transactions can enqueue lies in a finite universe U, and the cross-product
appends of any one expansion are bounded by K, then for every seed and
depth the loop exhausts its queue after finitely many iterations, and the
state (hence the graph) never changes again -- each address is expanded at
most once thanks to the visited set, each expansion enqueues only
boundedly many pairs, and every iteration removes one queued pair. -/
theorem c10_bfs_terminates (lookup : String → List TxView)
    (U : List String) (K : Nat)
    (hU : ∀ (a : String) (t : TxView), t ∈ lookup a →
      ∀ o ∈ t.outputs.map Prod.fst, o ∈ U)
    (hK : ∀ a : String, enqCount (lookup a) ≤ K)
    (A : String) (depth : Int) :
    ∃ n : Nat, (bfsRun lookup depth n (initState A)).queue = [] ∧
      ∀ m : Nat, n ≤ m →
        bfsRun lookup depth m (initState A) =
          bfsRun lookup depth n (initState A) := by
  obtain ⟨n, hn⟩ := bfs_reaches_empty lookup depth U K hU hK
    (bfsMeasure U K (initState A)) (initState A) le_rfl
  refine ⟨n, hn, ?_⟩
  intro m hm
  obtain ⟨j, rfl⟩ := Nat.exists_eq_add_of_le hm
  show (bfsStep lookup depth)^[n + j] (initState A) =
    (bfsStep lookup depth)^[n] (initState A)
  rw [Nat.add_comm, Function.iterate_add_apply]
  exact bfsIter_of_queue_nil lookup depth j _ hn

/-- C10 witness: the theorem at the two-transaction scenario lookup with
universe {X, Y, Z}, per-expansion bound 4, seed X, depth 1. -/
theorem c10_witness :
    ∃ n : Nat, (bfsRun scenLookup 1 n (initState "X")).queue = [] ∧
      ∀ m : Nat, n ≤ m →
        bfsRun scenLookup 1 m (initState "X") =
          bfsRun scenLookup 1 n (initState "X") :=
  c10_bfs_terminates scenLookup ["X", "Y", "Z"] 4
    (fun a t ht o ho => by
      unfold scenLookup at ht
      by_cases ha : a = "X"
      · rw [if_pos ha] at ht
        rcases List.mem_cons.mp ht with rfl | ht2
        · simp only [tvFund, List.map_cons, List.map_nil, List.mem_cons,
            List.not_mem_nil, or_false] at ho
          rw [ho]
          decide
        · rcases List.mem_cons.mp ht2 with rfl | ht3
          · simp only [tvSpend, List.map_cons, List.map_nil, List.mem_cons,
              List.not_mem_nil, or_false] at ho
            rcases ho with rfl | rfl <;> decide
          · exact absurd ht3 (List.not_mem_nil t)
      · rw [if_neg ha] at ht
        exact absurd ht (List.not_mem_nil t))
    (fun a => by
      unfold scenLookup
      by_cases ha : a = "X"
      · rw [if_pos ha]; decide
      · rw [if_neg ha]; decide)
    "X" 1
